import Mathlib

/-!
Verification of the luxfi/sdk transaction-execution core against its design
spec: the Result binary codec (`chain` package), the tokenvm controller's
`Accepted`/`Rejected` block hooks, the order-fill arithmetic, and the wallet's
transfer-transaction builder.  Go source is embedded shallowly: machine
integers become `Nat` with explicit `% 2 ^ w` where Go wraps, byte slices
become `List Nat`, a nil-vs-empty `[]byte` distinction becomes
`Option (List Nat)`, and fallible code returns `Except`/`Option`.
-/

namespace LuxSDK

/-! ## Byte-level primitives -/

/-- One byte for a Go bool: 1 for true, 0 for false. -/
def boolByte (b : Bool) : Nat := if b then 1 else 0

/-- Big-endian encoding of the low `w` bytes of `n`. -/
def beBytes : Nat → Nat → List Nat
  | 0, _ => []
  | w + 1, n => beBytes w (n / 256) ++ [n % 256]

/-- Big-endian value of a byte list. -/
def fromBE (l : List Nat) : Nat := l.foldl (fun acc b => acc * 256 + b) 0

/-! ## The `codec` packer

Modelled from the spec: the `github.com/luxfi/sdk/codec` package (wrapping the
node packer) is not under src/; §4.6 fixes its wire discipline — one byte for
a bool, eight big-endian bytes for a uint64, and length-prefixed byte strings
whose four-byte length prefix is checked against a caller-supplied limit.  The
packer carries a sticky first error; reads past the end of the buffer set the
error and yield zero values, and a writer refuses to grow past its size limit. -/

/-- Codec-level errors of the modelled packer. -/
inductive CErr where
  | underflow
  | badBool
  | tooLarge
  | fieldNotPopulated
  deriving DecidableEq, Repr

/-- `consts.MaxInt`: the Go `math.MaxInt` on a 64-bit platform. -/
def MaxInt : Nat := 2 ^ 63 - 1

/-- Modelled from the spec: the writing half of `codec.Packer`. -/
structure Writer where
  b : List Nat
  limit : Nat
  err : Option CErr
  deriving DecidableEq, Repr

/-- `codec.NewWriter(limit)`. -/
def Writer.new (limit : Nat) : Writer := ⟨[], limit, none⟩

/-- Append raw bytes, failing when the size limit would be exceeded. -/
def Writer.append (p : Writer) (bs : List Nat) : Writer :=
  match p.err with
  | some _ => p
  | none =>
    if p.limit < p.b.length + bs.length then { p with err := some .tooLarge }
    else { p with b := p.b ++ bs }

/-- `Packer.PackBool`. -/
def Writer.PackBool (p : Writer) (v : Bool) : Writer := p.append [boolByte v]

/-- `Packer.PackUint64`: eight big-endian bytes (wrapping past 2^64). -/
def Writer.PackUint64 (p : Writer) (n : Nat) : Writer := p.append (beBytes 8 n)

/-- `Packer.PackInt`: four big-endian bytes (wrapping past 2^32). -/
def Writer.PackInt (p : Writer) (n : Nat) : Writer := p.append (beBytes 4 n)

/-- `Packer.PackBytes`: length prefix then raw bytes. -/
def Writer.PackBytes (p : Writer) (bs : List Nat) : Writer :=
  (p.PackInt bs.length).append bs

/-- Modelled from the spec: the reading half of `codec.Packer`. -/
structure Reader where
  b : List Nat
  offset : Nat
  err : Option CErr
  deriving DecidableEq, Repr

/-- `codec.NewReader(src, limit)` (the global limit is not consulted by the
operations the `chain` package uses, so it is not carried). -/
def Reader.new (src : List Nat) : Reader := ⟨src, 0, none⟩

/-- Read `n` raw bytes; on underflow set the error and return nothing. -/
def Reader.readN (p : Reader) (n : Nat) : List Nat × Reader :=
  match p.err with
  | some _ => ([], p)
  | none =>
    if p.offset + n ≤ p.b.length then
      ((p.b.drop p.offset).take n, { p with offset := p.offset + n })
    else ([], { p with err := some .underflow })

/-- `Packer.UnpackBool`: one byte, which must be 0 or 1. -/
def Reader.UnpackBool (p : Reader) : Bool × Reader :=
  let s := p.readN 1
  match s.2.err with
  | some _ => (false, s.2)
  | none =>
    match s.1 with
    | [0] => (false, s.2)
    | [1] => (true, s.2)
    | _ => (false, { s.2 with err := some .badBool })

/-- `Packer.UnpackUint64(required)`. -/
def Reader.UnpackUint64 (p : Reader) (required : Bool) : Nat × Reader :=
  let s := p.readN 8
  let v := fromBE s.1
  if required && v == 0 && s.2.err == none then
    (v, { s.2 with err := some .fieldNotPopulated })
  else (v, s.2)

/-- `Packer.UnpackInt(required)`. -/
def Reader.UnpackInt (p : Reader) (required : Bool) : Nat × Reader :=
  let s := p.readN 4
  let v := fromBE s.1
  if required && v == 0 && s.2.err == none then
    (v, { s.2 with err := some .fieldNotPopulated })
  else (v, s.2)

/-- `Packer.UnpackBytes(limit, required, dest)`: a declared length beyond
`limit` is rejected before any payload byte is read. -/
def Reader.UnpackBytes (p : Reader) (limit : Nat) (required : Bool) :
    List Nat × Reader :=
  let s := p.UnpackInt false
  match s.2.err with
  | some _ => ([], s.2)
  | none =>
    if limit < s.1 then ([], { s.2 with err := some .tooLarge })
    else
      let t := s.2.readN s.1
      if required && t.1.length == 0 && t.2.err == none then
        (t.1, { t.2 with err := some .fieldNotPopulated })
      else (t.1, t.2)

/-- `Packer.Empty`: every byte has been consumed. -/
def Reader.Empty (p : Reader) : Bool := p.b.length ≤ p.offset

/-! ## Warp messages

Modelled from the spec: `warp.UnsignedMessage` comes from the external
`luxfi/vms` module.  The spec treats it as an opaque cross-chain attestation
with a canonical byte serialization, bounded at 256 KiB, that parses back to
the message.  We model it as a 32-byte source-chain identifier followed by an
arbitrary payload; its serialization is therefore never empty. -/

structure UnsignedMessage where
  sourceChainID : Nat
  payload : List Nat
  deriving DecidableEq, Repr

/-- `UnsignedMessage.Bytes()`: the canonical serialization. -/
def UnsignedMessage.Bytes (m : UnsignedMessage) : List Nat :=
  beBytes 32 m.sourceChainID ++ m.payload

/-- `warp.ParseUnsignedMessage`. -/
def ParseUnsignedMessage (bs : List Nat) : Except Unit UnsignedMessage :=
  if 32 ≤ bs.length then .ok ⟨fromBE (bs.take 32), bs.drop 32⟩ else .error ()

/-! ## The `chain` Result codec (from `src/unnamed/part_014` and
`src/chain/consts.go`) -/

/-- `chain.MaxWarpMessageSize = 256 * units.KiB`. -/
def MaxWarpMessageSize : Nat := 256 * 1024

/-- `chain.Result`.  Go distinguishes a nil `Output` slice from an empty
non-nil one; `none` models nil and `some []` models the empty non-nil slice. -/
structure Result where
  Success : Bool
  Units : Nat
  Output : Option (List Nat)
  WarpMessage : Option UnsignedMessage
  deriving DecidableEq, Repr

/-- Errors surfaced by `UnmarshalResult` / `UnmarshalResults`:
a packer error, a warp-parse failure, or `chain.ErrInvalidObject`. -/
inductive DecodeErr where
  | codec (e : CErr)
  | badWarp
  | invalidObject
  deriving DecidableEq, Repr

/-- The explicit normalization in `UnmarshalResult`: a zero-length output is
stored as nil ("Enforce object standardization"). -/
def normalizeOutput (bs : List Nat) : Option (List Nat) :=
  if bs.length == 0 then none else some bs

/-- `Result.Marshal`: success flag, fee units, output bytes, warp bytes —
in that order, the warp segment empty when no message is attached. -/
def Result.Marshal (r : Result) (p : Writer) : Writer :=
  let p1 := p.PackBool r.Success
  let p2 := p1.PackUint64 r.Units
  let p3 := p2.PackBytes (r.Output.getD [])
  let warpBytes : List Nat :=
    match r.WarpMessage with
    | some m => m.Bytes
    | none => []
  p3.PackBytes warpBytes

/-- `chain.MarshalResults`. -/
def MarshalResults (src : List Result) : Except CErr (List Nat) :=
  let p0 := Writer.new MaxInt
  let p1 := p0.PackInt src.length
  let p2 := src.foldl (fun p r => r.Marshal p) p1
  match p2.err with
  | some e => .error e
  | none => .ok p2.b

/-- `chain.UnmarshalResult`. -/
def UnmarshalResult (p : Reader) : Except DecodeErr Result × Reader :=
  let s1 := p.UnpackBool
  let s2 := s1.2.UnpackUint64 false
  let s3 := s2.2.UnpackBytes MaxInt false
  let s4 := s3.2.UnpackBytes MaxWarpMessageSize false
  if 0 < s4.1.length then
    match ParseUnsignedMessage s4.1 with
    | .error _ => (.error .badWarp, s4.2)
    | .ok msg =>
      match s4.2.err with
      | some e => (.error (.codec e), s4.2)
      | none => (.ok ⟨s1.1, s2.1, normalizeOutput s3.1, some msg⟩, s4.2)
  else
    match s4.2.err with
    | some e => (.error (.codec e), s4.2)
    | none => (.ok ⟨s1.1, s2.1, normalizeOutput s3.1, none⟩, s4.2)

/-- The decode loop of `chain.UnmarshalResults` over the declared item count. -/
def unmarshalResultsLoop : Nat → Reader → Except DecodeErr (List Result × Reader)
  | 0, p => .ok ([], p)
  | n + 1, p =>
    match UnmarshalResult p with
    | (.error e, _) => .error e
    | (.ok r, p1) =>
      match unmarshalResultsLoop n p1 with
      | .error e => .error e
      | .ok (rs, p2) => .ok (r :: rs, p2)

/-- `chain.UnmarshalResults`: decode the declared count, then reject any
trailing bytes with `ErrInvalidObject`. -/
def UnmarshalResults (src : List Nat) : Except DecodeErr (List Result) :=
  let p0 := Reader.new src
  let s := p0.UnpackInt false
  match unmarshalResultsLoop s.1 s.2 with
  | .error e => .error e
  | .ok (rs, p1) => if p1.Empty then .ok rs else .error .invalidObject

/-! ## Codec correctness lemmas -/

/-- The output segment `Result.Marshal` writes (nil and empty coincide). -/
def outBytesOf (r : Result) : List Nat := r.Output.getD []

/-- The warp segment `Result.Marshal` writes (empty when no message). -/
def warpBytesOf (r : Result) : List Nat :=
  match r.WarpMessage with
  | some m => m.Bytes
  | none => []

/-- A length-prefixed byte string as `PackBytes` lays it out. -/
def lenPrefixed (bs : List Nat) : List Nat := beBytes 4 bs.length ++ bs

/-- The exact byte string `Result.Marshal` appends. -/
def resultBytes (r : Result) : List Nat :=
  boolByte r.Success ::
    (beBytes 8 r.Units ++ lenPrefixed (outBytesOf r) ++ lenPrefixed (warpBytesOf r))

/-- Concatenated encodings of a result list, as `MarshalResults` emits them. -/
def bytesConcat : List Result → List Nat
  | [] => []
  | r :: rs => resultBytes r ++ bytesConcat rs

/-- Equality of `Except` values is decidable when both components are. -/
instance {ε α : Type} [DecidableEq ε] [DecidableEq α] :
    DecidableEq (Except ε α) := fun x y =>
  match x, y with
  | .error e, .error e' =>
    decidable_of_iff (e = e') (by constructor <;> (intro h; first | rw [h] | injection h))
  | .error _, .ok _ => isFalse (by intro h; injection h)
  | .ok _, .error _ => isFalse (by intro h; injection h)
  | .ok a, .ok a' =>
    decidable_of_iff (a = a') (by constructor <;> (intro h; first | rw [h] | injection h))

/-- Well-formedness of a `Result` as a Go value: the fee units fit a uint64,
the output fits the `int` length prefix, and an attached warp message is a
valid attestation within the 256 KiB bound. -/
def Result.wf (r : Result) : Prop :=
  r.Units < 2 ^ 64 ∧
  (r.Output.getD []).length < 2 ^ 32 ∧
  ∀ m, r.WarpMessage = some m →
    m.sourceChainID < 2 ^ 256 ∧ m.Bytes.length ≤ MaxWarpMessageSize

/-- Boolean check for `Result.wf`. -/
def Result.wfB (r : Result) : Bool :=
  decide (r.Units < 2 ^ 64) && decide ((r.Output.getD []).length < 2 ^ 32) &&
    match r.WarpMessage with
    | some m =>
      decide (m.sourceChainID < 2 ^ 256) &&
        decide (m.Bytes.length ≤ MaxWarpMessageSize)
    | none => true

instance (r : Result) : Decidable r.wf :=
  decidable_of_iff (r.wfB = true) (by
    unfold Result.wfB Result.wf
    cases hW : r.WarpMessage <;> simp [hW, and_assoc])

/-! ## The tokenvm controller
(from `src/.archive/tokenvm/controller/state_manager.go`) -/

/-- A transaction identifier (`ids.ID`). -/
abbrev TxID := Nat

/-- An asset identifier (`ids.ID`). -/
abbrev AssetID := Nat

/-- An account address. -/
abbrev Addr := Nat

/-- Modelled from the spec: `actions.PairID` is not under src/; §4.5 says the
trading-pair key is the canonical ordering of the two asset identifiers,
independent of which side is in vs out. -/
def PairID (inAsset outAsset : AssetID) : AssetID × AssetID :=
  if inAsset ≤ outAsset then (inAsset, outAsset) else (outAsset, inAsset)

/-- The closed set of tokenvm action variants `Controller.Accepted`
dispatches on; order-related variants carry the fields the dispatch reads. -/
inductive TokenAction where
  | CreateAsset
  | MintAsset
  | BurnAsset
  | ModifyAsset
  | Transfer
  | CreateOrder (inAsset outAsset : AssetID) (inTick outTick supply : Nat)
  | FillOrder (order : TxID)
  | CloseOrder (order : TxID)
  | ImportAsset
  | ExportAsset
  deriving DecidableEq, Repr

/-- A transaction as `Accepted` consumes it: its ID, its single action, and
the actor recovered from its authenticator (`auth.GetActor(tx.Auth)`). -/
structure Tx where
  id : TxID
  action : TokenAction
  actor : Addr
  deriving DecidableEq, Repr

/-- The controller's `Order` record: `{tx.ID(), tutils.Address(actor),
action.InTick, action.OutTick, action.Supply, actor}`. -/
structure Order where
  id : TxID
  owner : Addr
  inTick : Nat
  outTick : Nat
  remaining : Nat
  actor : Addr
  deriving DecidableEq, Repr

/-- Modelled from the spec: the `actions.FillOrder` execution arithmetic is
not under src/; §4.5/§8 fix it — a fill `f` is valid iff `f` is at most the
remaining supply, the output is `f * OutTick / InTick` with integer
truncation, and the remaining supply decreases by exactly `f`. -/
def FillOrderExecute (o : Order) (f : Nat) : Option (Nat × Order) :=
  if f ≤ o.remaining then
    some (f * o.outTick / o.inTick, { o with remaining := o.remaining - f })
  else none

/-- The controller's per-action prometheus counters. -/
structure Metrics where
  createAsset : Nat
  mintAsset : Nat
  burnAsset : Nat
  modifyAsset : Nat
  transfer : Nat
  createOrder : Nat
  fillOrder : Nat
  closeOrder : Nat
  importAsset : Nat
  exportAsset : Nat
  deriving DecidableEq, Repr

/-- The in-memory matching-engine index, keyed by trading pair. -/
abbrev OrderBook := List ((AssetID × AssetID) × Order)

/-- Modelled from the spec: `OrderBook.Add` inserts a new order under its
pair key (no implicit matching). -/
def OrderBook.Add (ob : OrderBook) (pair : AssetID × AssetID) (o : Order) :
    OrderBook :=
  ob ++ [(pair, o)]

/-- Modelled from the spec: `OrderBook.UpdateRemaining` sets an order's
remaining supply after a partial fill. -/
def OrderBook.UpdateRemaining (ob : OrderBook) (oid : TxID) (newRemaining : Nat) :
    OrderBook :=
  ob.map fun e =>
    if e.2.id = oid then (e.1, { e.2 with remaining := newRemaining }) else e

/-- Modelled from the spec: `OrderBook.Remove` drops an order on `CloseOrder`
or when its remaining supply reaches zero. -/
def OrderBook.Remove (ob : OrderBook) (oid : TxID) : OrderBook :=
  ob.filter fun e => e.2.id ≠ oid

/-- The record `storage.StoreTransaction` persists for one transaction. -/
structure TxRecord where
  timestamp : Int
  success : Bool
  units : Nat
  deriving DecidableEq, Repr

/-- A staged (not yet committed) batch of metadata-store writes. -/
abbrev Batch := List (TxID × TxRecord)

/-- Errors of the accepted-block pipeline. -/
inductive CtrlErr where
  | storeFailed
  | badOrderResult
  | writeFailed
  deriving DecidableEq, Repr

/-- Modelled from the spec: `storage.StoreTransaction` is not under src/; it
stages one transaction record (ID, block timestamp, success flag, fee units)
into the batch.  A disk failure for a given key is modelled by the oracle
`storeErr`. -/
def StoreTransaction (storeErr : TxID → Bool) (batch : Batch) (txID : TxID)
    (t : Int) (success : Bool) (units : Nat) : Except CtrlErr Batch :=
  if storeErr txID then .error .storeFailed
  else .ok (batch ++ [(txID, ⟨t, success, units⟩)])

/-- The remaining supply a successful fill reports in its result output. -/
structure OrderResult where
  remaining : Nat
  deriving DecidableEq, Repr

/-- Modelled from the spec: `actions.UnmarshalOrderResult` is not under src/;
it decodes the filled order's remaining supply from the result output, which
we model as eight big-endian bytes. -/
def UnmarshalOrderResult (output : Option (List Nat)) : Except CtrlErr OrderResult :=
  let bs := output.getD []
  if bs.length = 8 then .ok ⟨fromBE bs⟩ else .error .badOrderResult

/-- The controller state `Accepted`/`Rejected` act on: the committed metadata
store, the metrics counters, and the in-memory order book. -/
structure CState where
  metaDB : Batch
  metrics : Metrics
  orderBook : OrderBook
  deriving DecidableEq, Repr

/-- The loop body of `Controller.Accepted` for one `(tx, result)` pair:
store the record; then, only on success, bump the action's metric and apply
the order-book side effect of `CreateOrder` / `FillOrder` / `CloseOrder`. -/
def acceptTx (storeErr : TxID → Bool) (t : Int)
    (st : Batch × Metrics × OrderBook) (txr : Tx × Result) :
    Option CtrlErr × (Batch × Metrics × OrderBook) :=
  match StoreTransaction storeErr st.1 txr.1.id t txr.2.Success txr.2.Units with
  | .error e => (some e, st)
  | .ok batch =>
    if txr.2.Success = true then
      match txr.1.action with
      | .CreateAsset =>
        (none, (batch, { st.2.1 with createAsset := st.2.1.createAsset + 1 }, st.2.2))
      | .MintAsset =>
        (none, (batch, { st.2.1 with mintAsset := st.2.1.mintAsset + 1 }, st.2.2))
      | .BurnAsset =>
        (none, (batch, { st.2.1 with burnAsset := st.2.1.burnAsset + 1 }, st.2.2))
      | .ModifyAsset =>
        (none, (batch, { st.2.1 with modifyAsset := st.2.1.modifyAsset + 1 }, st.2.2))
      | .Transfer =>
        (none, (batch, { st.2.1 with transfer := st.2.1.transfer + 1 }, st.2.2))
      | .CreateOrder inAsset outAsset inTick outTick supply =>
        (none, (batch, { st.2.1 with createOrder := st.2.1.createOrder + 1 },
          OrderBook.Add st.2.2 (PairID inAsset outAsset)
            ⟨txr.1.id, txr.1.actor, inTick, outTick, supply, txr.1.actor⟩))
      | .FillOrder ord =>
        match UnmarshalOrderResult txr.2.Output with
        | .error e =>
          (some e, (batch, { st.2.1 with fillOrder := st.2.1.fillOrder + 1 }, st.2.2))
        | .ok ores =>
          if ores.remaining = 0 then
            (none, (batch, { st.2.1 with fillOrder := st.2.1.fillOrder + 1 },
              OrderBook.Remove st.2.2 ord))
          else
            (none, (batch, { st.2.1 with fillOrder := st.2.1.fillOrder + 1 },
              OrderBook.UpdateRemaining st.2.2 ord ores.remaining))
      | .CloseOrder ord =>
        (none, (batch, { st.2.1 with closeOrder := st.2.1.closeOrder + 1 },
          OrderBook.Remove st.2.2 ord))
      | .ImportAsset =>
        (none, (batch, { st.2.1 with importAsset := st.2.1.importAsset + 1 }, st.2.2))
      | .ExportAsset =>
        (none, (batch, { st.2.1 with exportAsset := st.2.1.exportAsset + 1 }, st.2.2))
    else (none, (batch, st.2.1, st.2.2))

/-- The transaction loop of `Controller.Accepted`: stop at the first error
(the mutated in-memory state persists, as the Go controller's fields do). -/
def acceptLoop (storeErr : TxID → Bool) (t : Int) :
    List (Tx × Result) → Batch × Metrics × OrderBook →
    Option CtrlErr × (Batch × Metrics × OrderBook)
  | [], st => (none, st)
  | txr :: rest, st =>
    match acceptTx storeErr t st txr with
    | (some e, st1) => (some e, st1)
    | (none, st1) => acceptLoop storeErr t rest st1

/-- `Controller.Accepted`: stage every transaction's record in one batch,
then commit the batch with a single write; on any error the batch is reset
without being written, so the metadata store is untouched.  `writeErr`
models a disk failure of the final `batch.Write()`. -/
def Controller.Accepted (storeErr : TxID → Bool) (writeErr : Bool) (t : Int)
    (txs : List (Tx × Result)) (s : CState) : Option CtrlErr × CState :=
  match acceptLoop storeErr t txs ([], s.metrics, s.orderBook) with
  | (some e, (_, m, ob)) => (some e, ⟨s.metaDB, m, ob⟩)
  | (none, (batch, m, ob)) =>
    if writeErr then (some .writeFailed, ⟨s.metaDB, m, ob⟩)
    else (none, ⟨s.metaDB ++ batch, m, ob⟩)

/-- `Controller.Rejected`: returns nil and touches nothing. -/
def Controller.Rejected (s : CState) : Option CtrlErr × CState := (none, s)

/-! ## The wallet (from `src/unnamed/part_016`) -/

/-- `wallet.UTXO`. -/
structure UTXO where
  id : Nat
  assetID : AssetID
  amount : Nat
  owner : Addr
  locktime : Nat
  deriving DecidableEq, Repr

/-- `wallet.Wallet`: Go iterates its `utxos` map in unspecified order, so the
model carries the UTXO set as a list in an arbitrary fixed order; `addresses`
likewise carries the address set with `GetAddress` returning its head. -/
structure Wallet where
  networkID : Nat
  chainID : Nat
  utxos : List UTXO
  addresses : List Addr
  deriving DecidableEq, Repr

/-- Errors of the wallet transfer path. -/
inductive WalletErr where
  | insufficientFunds
  | noAddresses
  deriving DecidableEq, Repr

/-- The selection loop of `Wallet.GetUTXOs`: skip UTXOs of other assets or
foreign owners, accumulate amounts with uint64 wrap-around, and return early
(flag true) once the accumulated total covers the requested amount. -/
def getUTXOsLoop (assetID : AssetID) (amount : Nat) (addrs : List Addr) :
    List UTXO → List UTXO → Nat → List UTXO × Nat × Bool
  | [], acc, total => (acc, total, false)
  | u :: rest, acc, total =>
    if u.assetID ≠ assetID then getUTXOsLoop assetID amount addrs rest acc total
    else if ¬ addrs.contains u.owner then
      getUTXOsLoop assetID amount addrs rest acc total
    else
      let acc1 := acc ++ [u]
      let total1 := (total + u.amount) % 2 ^ 64
      if amount ≤ total1 then (acc1, total1, true)
      else getUTXOsLoop assetID amount addrs rest acc1 total1

/-- The running uint64 total `getUTXOsLoop` accumulates over a selection:
each selected amount is added with wrap-around modulo 2^64, exactly as Go's
`totalAmt += utxo.Amount` does. -/
def wrapSum (total : Nat) : List UTXO → Nat
  | [] => total
  | u :: rest => wrapSum ((total + u.amount) % 2 ^ 64) rest

/-- `Wallet.GetUTXOs`. -/
def Wallet.GetUTXOs (w : Wallet) (assetID : AssetID) (amount : Nat) :
    Except WalletErr (List UTXO × Nat) :=
  let r := getUTXOsLoop assetID amount w.addresses w.utxos [] 0
  if r.2.2 then .ok (r.1, r.2.1)
  else if r.2.1 < amount then .error .insufficientFunds
  else .ok (r.1, r.2.1)

/-- `Wallet.GetAddress`: the first address of the wallet. -/
def Wallet.GetAddress (w : Wallet) : Except WalletErr Addr :=
  match w.addresses with
  | [] => .error .noAddresses
  | a :: _ => .ok a

/-- `wallet.TransferInput`. -/
structure TransferInput where
  utxoID : Nat
  assetID : AssetID
  amount : Nat
  deriving DecidableEq, Repr

/-- `wallet.TransferOutput`. -/
structure TransferOutput where
  assetID : AssetID
  amount : Nat
  recipient : Addr
  locktime : Nat
  deriving DecidableEq, Repr

/-- `wallet.TransferTx`. -/
structure TransferTx where
  networkID : Nat
  chainID : Nat
  inputs : List TransferInput
  outputs : List TransferOutput
  memo : List Nat
  deriving DecidableEq, Repr

/-- `Wallet.CreateTransferTx`: select UTXOs, spend them all as inputs, pay
the recipient the requested amount, and return any excess to the wallet's
own (first) address as a change output. -/
def Wallet.CreateTransferTx (w : Wallet) (toAddr : Addr) (assetID : AssetID)
    (amount : Nat) (memo : List Nat) : Except WalletErr TransferTx :=
  match w.GetUTXOs assetID amount with
  | .error e => .error e
  | .ok (utxos, totalAmt) =>
    let inputs := utxos.map fun u => TransferInput.mk u.id assetID u.amount
    let outputs := [TransferOutput.mk assetID amount toAddr 0]
    if amount < totalAmt then
      match w.GetAddress with
      | .error e => .error e
      | .ok fromAddr =>
        .ok ⟨w.networkID, w.chainID, inputs,
          outputs ++ [TransferOutput.mk assetID (totalAmt - amount) fromAddr 0],
          memo⟩
    else .ok ⟨w.networkID, w.chainID, inputs, outputs, memo⟩

/-! ## Byte-primitive lemmas -/

theorem beBytes_length (w n : Nat) : (beBytes w n).length = w := by
  induction w generalizing n with
  | zero => rfl
  | succ w ih => simp [beBytes, ih]

theorem fromBE_concat (l : List Nat) (b : Nat) :
    fromBE (l ++ [b]) = fromBE l * 256 + b := by
  simp [fromBE, List.foldl_append]

theorem fromBE_beBytes (w n : Nat) : fromBE (beBytes w n) = n % 256 ^ w := by
  induction w generalizing n with
  | zero => simp [beBytes, fromBE, Nat.mod_one]
  | succ w ih =>
    rw [beBytes, fromBE_concat, ih]
    have h256 : (0:Nat) < 256 := by norm_num
    rw [pow_succ, Nat.mul_comm (256 ^ w) 256, Nat.mod_mul]
    ring

theorem fromBE_beBytes_of_lt (w n : Nat) (h : n < 256 ^ w) :
    fromBE (beBytes w n) = n := by
  rw [fromBE_beBytes, Nat.mod_eq_of_lt h]

theorem resultBytes_length (r : Result) :
    (resultBytes r).length = 17 + (outBytesOf r).length + (warpBytesOf r).length := by
  simp [resultBytes, lenPrefixed, beBytes_length]
  omega

theorem Writer.append_eq (p : Writer) (bs : List Nat) (h0 : p.err = none)
    (h : p.b.length + bs.length ≤ p.limit) :
    p.append bs = ⟨p.b ++ bs, p.limit, none⟩ := by
  obtain ⟨b, limit, err⟩ := p
  simp only at h0
  subst h0
  simp only [Writer.append]
  rw [if_neg (by simp at h ⊢; omega)]

theorem Writer.append_append_eq (p : Writer) (xs ys : List Nat) (h0 : p.err = none)
    (h : p.b.length + xs.length + ys.length ≤ p.limit) :
    (p.append xs).append ys = p.append (xs ++ ys) := by
  rw [Writer.append_eq p xs h0 (by omega)]
  rw [Writer.append_eq _ ys rfl (by simp; omega)]
  rw [Writer.append_eq p _ h0 (by simp; omega)]
  simp

theorem Result.marshal_eq (r : Result) (p : Writer) (h0 : p.err = none)
    (h : p.b.length + (resultBytes r).length ≤ p.limit) :
    r.Marshal p = ⟨p.b ++ resultBytes r, p.limit, none⟩ := by
  have hlen := resultBytes_length r
  simp only [Result.Marshal, Writer.PackBool, Writer.PackUint64, Writer.PackBytes,
    Writer.PackInt]
  have hw : (match r.WarpMessage with
      | some m => m.Bytes
      | none => ([] : List Nat)) = warpBytesOf r := rfl
  rw [hw]
  have ho : r.Output.getD [] = outBytesOf r := rfl
  rw [ho]
  rw [Writer.append_append_eq p _ _ h0
    (by simp [beBytes_length]; omega)]
  rw [Writer.append_append_eq p _ _ h0
    (by simp [beBytes_length]; omega)]
  rw [Writer.append_append_eq p _ _ h0
    (by simp [beBytes_length]; omega)]
  rw [Writer.append_append_eq p _ _ h0
    (by simp [beBytes_length]; omega)]
  rw [Writer.append_append_eq p _ _ h0
    (by simp [beBytes_length]; omega)]
  rw [Writer.append_eq p _ h0 (by simp [beBytes_length]; omega)]
  simp [resultBytes, lenPrefixed]

theorem Reader.readN_spec (full pre chunk post : List Nat)
    (h : full = pre ++ chunk ++ post) :
    Reader.readN ⟨full, pre.length, none⟩ chunk.length =
      (chunk, ⟨full, pre.length + chunk.length, none⟩) := by
  subst h
  simp only [Reader.readN]
  rw [if_pos (by simp only [List.length_append]; omega)]
  rw [List.append_assoc, List.drop_left, List.take_left]

theorem Reader.UnpackBool_spec (full pre post : List Nat) (v : Bool)
    (h : full = pre ++ [boolByte v] ++ post) :
    Reader.UnpackBool ⟨full, pre.length, none⟩ =
      (v, ⟨full, pre.length + 1, none⟩) := by
  have hr := Reader.readN_spec full pre [boolByte v] post h
  simp only [List.length_singleton] at hr
  simp only [Reader.UnpackBool, hr]
  cases v <;> simp [boolByte]

theorem Reader.UnpackUint64_chunk (full pre chunk post : List Nat)
    (h : full = pre ++ chunk ++ post) (hl : chunk.length = 8) :
    Reader.UnpackUint64 ⟨full, pre.length, none⟩ false =
      (fromBE chunk, ⟨full, pre.length + 8, none⟩) := by
  have hr := Reader.readN_spec full pre chunk post h
  rw [hl] at hr
  simp [Reader.UnpackUint64, hr]

theorem Reader.UnpackInt_chunk (full pre chunk post : List Nat)
    (h : full = pre ++ chunk ++ post) (hl : chunk.length = 4) :
    Reader.UnpackInt ⟨full, pre.length, none⟩ false =
      (fromBE chunk, ⟨full, pre.length + 4, none⟩) := by
  have hr := Reader.readN_spec full pre chunk post h
  rw [hl] at hr
  simp [Reader.UnpackInt, hr]

theorem Reader.UnpackBytes_spec (full pre bs post : List Nat) (limit : Nat)
    (h : full = pre ++ (beBytes 4 bs.length ++ bs) ++ post)
    (hlen : bs.length < 2 ^ 32) (hlim : bs.length ≤ limit) :
    Reader.UnpackBytes ⟨full, pre.length, none⟩ limit false =
      (bs, ⟨full, pre.length + (4 + bs.length), none⟩) := by
  have h1 : full = pre ++ beBytes 4 bs.length ++ (bs ++ post) := by
    rw [h]; simp [List.append_assoc]
  have hi := Reader.UnpackInt_chunk full pre (beBytes 4 bs.length) (bs ++ post) h1
    (beBytes_length 4 bs.length)
  rw [fromBE_beBytes_of_lt 4 bs.length (by norm_num at hlen ⊢; omega)] at hi
  have h2 : full = (pre ++ beBytes 4 bs.length) ++ bs ++ post := by
    rw [h]; simp [List.append_assoc]
  have hrd := Reader.readN_spec full (pre ++ beBytes 4 bs.length) bs post h2
  simp only [List.length_append, beBytes_length] at hrd
  simp only [Reader.UnpackBytes, hi]
  rw [if_neg (by omega)]
  simp [hrd, Nat.add_assoc]

theorem Reader.UnpackBytes_tooLarge (full pre post : List Nat) (limit L : Nat)
    (h : full = pre ++ beBytes 4 L ++ post) (hL : L < 2 ^ 32) (hlim : limit < L) :
    Reader.UnpackBytes ⟨full, pre.length, none⟩ limit false =
      ([], ⟨full, pre.length + 4, some .tooLarge⟩) := by
  have hi := Reader.UnpackInt_chunk full pre (beBytes 4 L) post h (beBytes_length 4 L)
  rw [fromBE_beBytes_of_lt 4 L (by norm_num at hL ⊢; omega)] at hi
  simp only [Reader.UnpackBytes, hi]
  rw [if_pos hlim]

theorem Reader.readN_length_le (p : Reader) (n : Nat) :
    ((p.readN n).1).length ≤ n := by
  simp only [Reader.readN]
  cases p.err <;> simp
  split <;> simp [List.length_take]

theorem Reader.UnpackBytes_length_le (p : Reader) (limit : Nat) (required : Bool) :
    ((p.UnpackBytes limit required).1).length ≤ limit := by
  simp only [Reader.UnpackBytes]
  cases he : ((p.UnpackInt false).2).err <;> simp
  split
  · simp
  · split
    · exact le_trans (Reader.readN_length_le _ _) (by omega)
    · exact le_trans (Reader.readN_length_le _ _) (by omega)

theorem ParseUnsignedMessage_bytes (bs : List Nat) (m : UnsignedMessage)
    (h : ParseUnsignedMessage bs = .ok m) : m.Bytes.length = bs.length := by
  simp only [ParseUnsignedMessage] at h
  split at h
  · cases h
    simp only [UnsignedMessage.Bytes, List.length_append, beBytes_length,
      List.length_drop]
    omega
  · cases h

theorem ParseUnsignedMessage_roundtrip (m : UnsignedMessage)
    (hs : m.sourceChainID < 2 ^ 256) :
    ParseUnsignedMessage m.Bytes = .ok m := by
  simp only [ParseUnsignedMessage, UnsignedMessage.Bytes]
  rw [if_pos (by simp [beBytes_length])]
  have ht : (beBytes 32 m.sourceChainID ++ m.payload).take 32 = beBytes 32 m.sourceChainID := by
    have := List.take_left (beBytes 32 m.sourceChainID) m.payload
    rwa [beBytes_length] at this
  have hd : (beBytes 32 m.sourceChainID ++ m.payload).drop 32 = m.payload := by
    have := List.drop_left (beBytes 32 m.sourceChainID) m.payload
    rwa [beBytes_length] at this
  rw [ht, hd, fromBE_beBytes_of_lt 32 m.sourceChainID (by norm_num at hs ⊢; omega)]

theorem UnsignedMessage.bytes_ne_nil (m : UnsignedMessage) : 0 < m.Bytes.length := by
  simp only [UnsignedMessage.Bytes, List.length_append, beBytes_length]
  omega

theorem normalizeOutput_eq (r : Result) (hout : r.Output ≠ some ([] : List Nat)) :
    normalizeOutput (outBytesOf r) = r.Output := by
  cases ho : r.Output with
  | none => simp [normalizeOutput, outBytesOf, ho]
  | some bs =>
    have hne : bs ≠ [] := by
      intro hcon
      exact hout (by rw [ho, hcon])
    simp [normalizeOutput, outBytesOf, ho, List.length_eq_zero, hne]

theorem UnmarshalResult_spec (full pre post : List Nat) (r : Result)
    (hwf : r.wf) (hout : r.Output ≠ some ([] : List Nat))
    (hfull : full = pre ++ resultBytes r ++ post) :
    UnmarshalResult ⟨full, pre.length, none⟩ =
      (.ok r, ⟨full, pre.length + (resultBytes r).length, none⟩) := by
  obtain ⟨hu, holen, hwarp⟩ := hwf
  have e1 : Reader.UnpackBool ⟨full, pre.length, none⟩ =
      (r.Success, ⟨full, pre.length + 1, none⟩) := by
    refine Reader.UnpackBool_spec full pre
      (beBytes 8 r.Units ++ lenPrefixed (outBytesOf r) ++ lenPrefixed (warpBytesOf r)
        ++ post) r.Success ?_
    rw [hfull]
    simp [resultBytes, List.append_assoc]
  have e2 : Reader.UnpackUint64 ⟨full, pre.length + 1, none⟩ false =
      (r.Units, ⟨full, pre.length + 1 + 8, none⟩) := by
    have h' : full = (pre ++ [boolByte r.Success]) ++ beBytes 8 r.Units ++
        (lenPrefixed (outBytesOf r) ++ lenPrefixed (warpBytesOf r) ++ post) := by
      rw [hfull]
      simp [resultBytes, List.append_assoc]
    have hc := Reader.UnpackUint64_chunk full (pre ++ [boolByte r.Success])
      (beBytes 8 r.Units)
      (lenPrefixed (outBytesOf r) ++ lenPrefixed (warpBytesOf r) ++ post) h'
      (beBytes_length 8 r.Units)
    rw [fromBE_beBytes_of_lt 8 r.Units (by norm_num at hu ⊢; omega)] at hc
    simpa using hc
  have e3 : Reader.UnpackBytes ⟨full, pre.length + 1 + 8, none⟩ MaxInt false =
      (outBytesOf r,
        ⟨full, pre.length + 1 + 8 + (4 + (outBytesOf r).length), none⟩) := by
    have h' : full = (pre ++ [boolByte r.Success] ++ beBytes 8 r.Units) ++
        (beBytes 4 (outBytesOf r).length ++ outBytesOf r) ++
        (lenPrefixed (warpBytesOf r) ++ post) := by
      rw [hfull]
      simp [resultBytes, lenPrefixed, List.append_assoc]
    have ho : (outBytesOf r).length < 2 ^ 32 := holen
    have hc := Reader.UnpackBytes_spec full
      (pre ++ [boolByte r.Success] ++ beBytes 8 r.Units)
      (outBytesOf r) (lenPrefixed (warpBytesOf r) ++ post) MaxInt h' ho
      (by norm_num [MaxInt] at ho ⊢; omega)
    simpa using hc
  have hwlen : (warpBytesOf r).length ≤ MaxWarpMessageSize := by
    cases hW : r.WarpMessage with
    | none => simp [warpBytesOf, hW, MaxWarpMessageSize]
    | some m => simpa [warpBytesOf, hW] using (hwarp m hW).2
  have e4 : Reader.UnpackBytes
      ⟨full, pre.length + 1 + 8 + (4 + (outBytesOf r).length), none⟩
      MaxWarpMessageSize false =
      (warpBytesOf r,
        ⟨full, pre.length + 1 + 8 + (4 + (outBytesOf r).length) +
          (4 + (warpBytesOf r).length), none⟩) := by
    have h' : full = (pre ++ [boolByte r.Success] ++ beBytes 8 r.Units ++
        (beBytes 4 (outBytesOf r).length ++ outBytesOf r)) ++
        (beBytes 4 (warpBytesOf r).length ++ warpBytesOf r) ++ post := by
      rw [hfull]
      simp [resultBytes, lenPrefixed, List.append_assoc]
    have hc := Reader.UnpackBytes_spec full
      (pre ++ [boolByte r.Success] ++ beBytes 8 r.Units ++
        (beBytes 4 (outBytesOf r).length ++ outBytesOf r))
      (warpBytesOf r) post MaxWarpMessageSize h'
      (by norm_num [MaxWarpMessageSize] at hwlen ⊢; omega) hwlen
    have hx : (pre ++ [boolByte r.Success] ++ beBytes 8 r.Units ++
        (beBytes 4 (outBytesOf r).length ++ outBytesOf r)).length =
        pre.length + 1 + 8 + (4 + (outBytesOf r).length) := by
      simp [beBytes_length]
      omega
    rw [hx] at hc
    exact hc
  have hoff : pre.length + 1 + 8 + (4 + (outBytesOf r).length) +
      (4 + (warpBytesOf r).length) = pre.length + (resultBytes r).length := by
    rw [resultBytes_length]
    omega
  simp only [UnmarshalResult, e1, e2, e3, e4]
  rw [hoff]
  cases hW : r.WarpMessage with
  | none =>
    have hwb : warpBytesOf r = [] := by simp [warpBytesOf, hW]
    rw [hwb]
    simp only [List.length_nil, Nat.lt_irrefl, if_false]
    obtain ⟨S, U, O, W⟩ := r
    simp only at hW
    subst hW
    rw [normalizeOutput_eq ⟨S, U, O, none⟩ hout]
  | some m =>
    have hwb : warpBytesOf r = m.Bytes := by simp [warpBytesOf, hW]
    rw [hwb]
    rw [if_pos (UnsignedMessage.bytes_ne_nil m)]
    rw [ParseUnsignedMessage_roundtrip m (hwarp m hW).1]
    rw [normalizeOutput_eq r hout]
    obtain ⟨S, U, O, W⟩ := r
    simp only at hW
    subst hW
    rfl

theorem unmarshalResultsLoop_spec (rs : List Result) :
    ∀ (pre post : List Nat),
    (∀ r ∈ rs, r.wf ∧ r.Output ≠ some ([] : List Nat)) →
    unmarshalResultsLoop rs.length
        ⟨pre ++ bytesConcat rs ++ post, pre.length, none⟩ =
      .ok (rs, ⟨pre ++ bytesConcat rs ++ post,
        pre.length + (bytesConcat rs).length, none⟩) := by
  induction rs with
  | nil => intro pre post _; simp [unmarshalResultsLoop, bytesConcat]
  | cons r rs ih =>
    intro pre post hall
    have hr := hall r (List.mem_cons_self r rs)
    have hfull : pre ++ bytesConcat (r :: rs) ++ post =
        pre ++ resultBytes r ++ (bytesConcat rs ++ post) := by
      simp [bytesConcat, List.append_assoc]
    have e1 := UnmarshalResult_spec (pre ++ bytesConcat (r :: rs) ++ post)
      pre (bytesConcat rs ++ post) r hr.1 hr.2 hfull
    have hpre2 : pre.length + (resultBytes r).length =
        (pre ++ resultBytes r).length := by simp
    have hfull2 : pre ++ bytesConcat (r :: rs) ++ post =
        (pre ++ resultBytes r) ++ bytesConcat rs ++ post := by
      simp [bytesConcat, List.append_assoc]
    have e2 := ih (pre ++ resultBytes r) post
      (fun x hx => hall x (List.mem_cons_of_mem r hx))
    rw [← hfull2] at e2
    simp only [List.length_cons, unmarshalResultsLoop, e1, hpre2, e2]
    have hlen : (pre ++ resultBytes r).length + (bytesConcat rs).length =
        pre.length + (bytesConcat (r :: rs)).length := by
      simp [bytesConcat]
      omega
    rw [hlen]

theorem marshalFold_eq (rs : List Result) :
    ∀ (p : Writer), p.err = none →
    p.b.length + (bytesConcat rs).length ≤ p.limit →
    rs.foldl (fun p r => r.Marshal p) p = ⟨p.b ++ bytesConcat rs, p.limit, none⟩ := by
  induction rs with
  | nil => intro p h0 _; obtain ⟨b, limit, err⟩ := p; simp only at h0; subst h0
           simp [bytesConcat]
  | cons r rs ih =>
    intro p h0 hb
    simp only [bytesConcat, List.length_append] at hb
    have hm := Result.marshal_eq r p h0 (by omega)
    simp only [List.foldl_cons, hm]
    have := ih ⟨p.b ++ resultBytes r, p.limit, none⟩ rfl (by simp; omega)
    rw [this]
    simp [bytesConcat]

theorem MarshalResults_eq (rs : List Result)
    (h : 4 + (bytesConcat rs).length ≤ MaxInt) :
    MarshalResults rs = .ok (beBytes 4 rs.length ++ bytesConcat rs) := by
  simp only [MarshalResults, Writer.new, Writer.PackInt]
  rw [Writer.append_eq ⟨[], MaxInt, none⟩ (beBytes 4 rs.length) rfl
    (by simp [beBytes_length]; omega)]
  rw [marshalFold_eq rs ⟨[] ++ beBytes 4 rs.length, MaxInt, none⟩ rfl
    (by simp [beBytes_length]; omega)]
  simp

theorem Writer.append_ok_shape (p : Writer) (bs : List Nat)
    (h : (p.append bs).err = none) :
    p.err = none ∧ (p.append bs).b = p.b ++ bs := by
  obtain ⟨b, limit, err⟩ := p
  cases err with
  | some e => simp [Writer.append] at h
  | none =>
    simp only [Writer.append] at h ⊢
    by_cases hc : limit < b.length + bs.length
    · rw [if_pos hc] at h; simp at h
    · rw [if_neg hc] at h ⊢
      simp

theorem Result.marshal_ok_shape (r : Result) (p : Writer)
    (h : (r.Marshal p).err = none) :
    p.err = none ∧ (r.Marshal p).b = p.b ++ resultBytes r := by
  simp only [Result.Marshal, Writer.PackBool, Writer.PackUint64, Writer.PackBytes,
    Writer.PackInt] at h ⊢
  have h5 := Writer.append_ok_shape _ _ h
  have h4 := Writer.append_ok_shape _ _ h5.1
  have h3 := Writer.append_ok_shape _ _ h4.1
  have h2 := Writer.append_ok_shape _ _ h3.1
  have h1 := Writer.append_ok_shape _ _ h2.1
  have h0 := Writer.append_ok_shape _ _ h1.1
  refine ⟨h0.1, ?_⟩
  rw [h5.2, h4.2, h3.2, h2.2, h1.2, h0.2]
  simp [resultBytes, lenPrefixed, outBytesOf, warpBytesOf, List.append_assoc]

theorem marshalFold_ok_shape (rs : List Result) :
    ∀ (p : Writer),
    (rs.foldl (fun p r => r.Marshal p) p).err = none →
    p.err = none ∧
      (rs.foldl (fun p r => r.Marshal p) p).b = p.b ++ bytesConcat rs := by
  induction rs with
  | nil => intro p h; exact ⟨h, by simp [bytesConcat]⟩
  | cons r rs ih =>
    intro p h
    simp only [List.foldl_cons] at h ⊢
    have htail := ih (r.Marshal p) h
    have hhead := Result.marshal_ok_shape r p htail.1
    refine ⟨hhead.1, ?_⟩
    rw [htail.2, hhead.2]
    simp [bytesConcat]

theorem MarshalResults_ok_shape (rs : List Result) (bs : List Nat)
    (h : MarshalResults rs = .ok bs) :
    bs = beBytes 4 rs.length ++ bytesConcat rs := by
  simp only [MarshalResults, Writer.new, Writer.PackInt] at h
  set pf := rs.foldl (fun p r => r.Marshal p)
    ((⟨[], MaxInt, none⟩ : Writer).append (beBytes 4 rs.length)) with hpf
  cases he : pf.err with
  | some e => rw [he] at h; exact absurd h (by simp)
  | none =>
    rw [he] at h
    simp only [Except.ok.injEq] at h
    have hf := marshalFold_ok_shape rs _ he
    have hi := Writer.append_ok_shape ⟨[], MaxInt, none⟩ (beBytes 4 rs.length) hf.1
    rw [← h, hf.2, hi.2]
    simp

theorem Reader.Empty_iff (p : Reader) : p.Empty = true ↔ p.b.length ≤ p.offset := by
  simp [Reader.Empty]

theorem UnmarshalResults_decode (rs : List Result) (extra : List Nat)
    (hall : ∀ r ∈ rs, r.wf ∧ r.Output ≠ some ([] : List Nat))
    (hlen : rs.length < 2 ^ 32) :
    UnmarshalResults (beBytes 4 rs.length ++ bytesConcat rs ++ extra) =
      if extra.length = 0 then .ok rs else .error .invalidObject := by
  have hint : Reader.UnpackInt
      ⟨beBytes 4 rs.length ++ bytesConcat rs ++ extra, 0, none⟩ false =
      (rs.length, ⟨beBytes 4 rs.length ++ bytesConcat rs ++ extra, 4, none⟩) := by
    have h' : beBytes 4 rs.length ++ bytesConcat rs ++ extra =
        [] ++ beBytes 4 rs.length ++ (bytesConcat rs ++ extra) := by
      simp [List.append_assoc]
    have hc := Reader.UnpackInt_chunk
      (beBytes 4 rs.length ++ bytesConcat rs ++ extra) []
      (beBytes 4 rs.length) (bytesConcat rs ++ extra) h' (beBytes_length 4 rs.length)
    rw [fromBE_beBytes_of_lt 4 rs.length (by norm_num at hlen ⊢; omega)] at hc
    simpa using hc
  have hloop := unmarshalResultsLoop_spec rs (beBytes 4 rs.length) extra hall
  have hpre : (beBytes 4 rs.length).length = 4 := beBytes_length 4 rs.length
  rw [hpre] at hloop
  rw [List.append_assoc] at hloop
  rw [← List.append_assoc] at hloop
  simp only [UnmarshalResults, Reader.new, hint, hloop]
  by_cases hx : extra.length = 0
  · rw [if_pos hx]
    rw [if_pos (by simp [Reader.Empty]; omega)]
  · rw [if_neg hx]
    rw [if_neg (by simp [Reader.Empty]; omega)]

theorem normalizeOutput_ne_empty (bs : List Nat) :
    normalizeOutput bs ≠ some ([] : List Nat) := by
  unfold normalizeOutput
  split
  · simp
  · rename_i h
    intro hc
    have hb := Option.some.inj hc
    subst hb
    simp at h

theorem UnmarshalResult_output_ne_empty (p : Reader) (r : Result) (p1 : Reader)
    (h : UnmarshalResult p = (.ok r, p1)) :
    r.Output ≠ some ([] : List Nat) := by
  simp only [UnmarshalResult] at h
  split at h
  · split at h
    · simp at h
    · split at h
      · simp at h
      · rw [Prod.mk.injEq] at h
        obtain ⟨h1, _⟩ := h
        rw [Except.ok.injEq] at h1
        rw [← h1]
        exact normalizeOutput_ne_empty _
  · split at h
    · simp at h
    · rw [Prod.mk.injEq] at h
      obtain ⟨h1, _⟩ := h
      rw [Except.ok.injEq] at h1
      rw [← h1]
      exact normalizeOutput_ne_empty _

theorem UnmarshalResult_warp_bounded (p : Reader) (r : Result) (p1 : Reader)
    (h : UnmarshalResult p = (.ok r, p1)) :
    ∀ m, r.WarpMessage = some m → m.Bytes.length ≤ MaxWarpMessageSize := by
  intro m hm
  simp only [UnmarshalResult] at h
  split at h
  · split at h
    · simp at h
    · rename_i hparse
      split at h
      · simp at h
      · rw [Prod.mk.injEq] at h
        obtain ⟨h1, _⟩ := h
        rw [Except.ok.injEq] at h1
        rw [← h1] at hm
        simp only [Option.some.injEq] at hm
        subst hm
        rw [ParseUnsignedMessage_bytes _ _ hparse]
        exact Reader.UnpackBytes_length_le _ _ _
  · split at h
    · simp at h
    · rw [Prod.mk.injEq] at h
      obtain ⟨h1, _⟩ := h
      rw [Except.ok.injEq] at h1
      rw [← h1] at hm
      simp at hm

/-! ## Claim theorems: the Result codec -/

/-- Claim C1, counterexample: the claim fails as stated.  The Result whose
Output is the empty non-nil slice (`some []`) marshals fine, but decoding its
encoding yields a Result with a nil Output (`none`), which is a different Go
value — `UnmarshalResult` normalizes zero-length outputs to nil. -/
theorem C1_counterexample :
    MarshalResults [⟨true, 0, some [], none⟩] =
      .ok [0, 0, 0, 1, 1, 0, 0, 0, 0, 0, 0, 0, 0, 0, 0, 0, 0, 0, 0, 0, 0] ∧
    UnmarshalResults [0, 0, 0, 1, 1, 0, 0, 0, 0, 0, 0, 0, 0, 0, 0, 0, 0, 0, 0, 0, 0] =
      .ok [⟨true, 0, none, none⟩] ∧
    ((⟨true, 0, none, none⟩ : Result) ≠ ⟨true, 0, some [], none⟩) := by
  refine ⟨by decide, by decide, by decide⟩

/-- Claim C1 (amended): for every well-formed Result whose Output is not the
empty non-nil slice, decoding the encoding of `[r]` yields `[r]`; and for
every well-formed encoding of a declared list of Results followed by at least
one trailing byte, `UnmarshalResults` returns `ErrInvalidObject`. -/
theorem C1_roundtrip_and_trailing :
    (∀ (r : Result) (bs : List Nat), r.wf → r.Output ≠ some ([] : List Nat) →
      MarshalResults [r] = .ok bs → UnmarshalResults bs = .ok [r]) ∧
    (∀ (rs : List Result) (bs extra : List Nat),
      (∀ r ∈ rs, r.wf ∧ r.Output ≠ some ([] : List Nat)) →
      rs.length < 2 ^ 32 → extra ≠ [] → MarshalResults rs = .ok bs →
      UnmarshalResults (bs ++ extra) = .error .invalidObject) := by
  constructor
  · intro r bs hwf hout hm
    have hshape := MarshalResults_ok_shape [r] bs hm
    have hd := UnmarshalResults_decode [r] []
      (by
        intro x hx
        rw [List.mem_singleton] at hx
        subst hx
        exact ⟨hwf, hout⟩)
      (by norm_num)
    rw [hshape]
    simpa using hd
  · intro rs bs extra hall hlen hne hm
    have hshape := MarshalResults_ok_shape rs bs hm
    have hd := UnmarshalResults_decode rs extra hall hlen
    rw [hshape, List.append_assoc, ← List.append_assoc]
    rw [hd]
    rw [if_neg (by simpa using hne)]

/-- Claim C1 witness: a concrete Result round-trips, and its encoding with a
trailing byte is rejected with `ErrInvalidObject`. -/
theorem C1_witness :
    (Result.wf ⟨true, 7, some [3], none⟩ ∧
      (⟨true, 7, some [3], none⟩ : Result).Output ≠ some [] ∧
      MarshalResults [⟨true, 7, some [3], none⟩] =
        .ok [0, 0, 0, 1, 1, 0, 0, 0, 0, 0, 0, 0, 7, 0, 0, 0, 1, 3, 0, 0, 0, 0] ∧
      UnmarshalResults [0, 0, 0, 1, 1, 0, 0, 0, 0, 0, 0, 0, 7, 0, 0, 0, 1, 3, 0, 0, 0, 0] =
        .ok [⟨true, 7, some [3], none⟩]) ∧
    UnmarshalResults
        ([0, 0, 0, 1, 1, 0, 0, 0, 0, 0, 0, 0, 7, 0, 0, 0, 1, 3, 0, 0, 0, 0] ++ [9]) =
      .error .invalidObject := by
  constructor
  · refine ⟨by decide, by decide, by decide, ?_⟩
    exact C1_roundtrip_and_trailing.1 ⟨true, 7, some [3], none⟩ _ (by decide)
      (by decide) (by decide)
  · exact C1_roundtrip_and_trailing.2 [⟨true, 7, some [3], none⟩] _ [9]
      (by decide) (by decide) (by decide) (by decide)

/-- Claim C6: a buffer whose warp segment declares a length beyond
`MaxWarpMessageSize` makes `UnmarshalResult` return a structured codec error;
and a successfully decoded Result never carries warp-message bytes longer
than `MaxWarpMessageSize` (256 KiB). -/
theorem C6_warp_size_bound :
    (∀ (s : Bool) (u : Nat) (out : List Nat) (L : Nat) (rest : List Nat),
      out.length < 2 ^ 32 → L < 2 ^ 32 → MaxWarpMessageSize < L →
      (UnmarshalResult ⟨boolByte s ::
          (beBytes 8 u ++ (beBytes 4 out.length ++ out) ++ (beBytes 4 L ++ rest)),
        0, none⟩).1 = .error (.codec .tooLarge)) ∧
    (∀ (p : Reader) (r : Result) (p1 : Reader), UnmarshalResult p = (.ok r, p1) →
      ∀ m, r.WarpMessage = some m → m.Bytes.length ≤ MaxWarpMessageSize) := by
  constructor
  · intro s u out L rest hout hL hbig
    set full := boolByte s ::
      (beBytes 8 u ++ (beBytes 4 out.length ++ out) ++ (beBytes 4 L ++ rest))
      with hfl
    have e1 : Reader.UnpackBool ⟨full, 0, none⟩ = (s, ⟨full, 1, none⟩) := by
      have := Reader.UnpackBool_spec full []
        (beBytes 8 u ++ (beBytes 4 out.length ++ out) ++ (beBytes 4 L ++ rest)) s
        (by simp [hfl])
      simpa using this
    have e2 : Reader.UnpackUint64 ⟨full, 1, none⟩ false =
        (fromBE (beBytes 8 u), ⟨full, 1 + 8, none⟩) := by
      have := Reader.UnpackUint64_chunk full [boolByte s] (beBytes 8 u)
        ((beBytes 4 out.length ++ out) ++ (beBytes 4 L ++ rest))
        (by simp [hfl]) (beBytes_length 8 u)
      simpa using this
    have e3 : Reader.UnpackBytes ⟨full, 1 + 8, none⟩ MaxInt false =
        (out, ⟨full, 1 + 8 + (4 + out.length), none⟩) := by
      have := Reader.UnpackBytes_spec full ([boolByte s] ++ beBytes 8 u) out
        (beBytes 4 L ++ rest) MaxInt
        (by simp [hfl, List.append_assoc]) hout
        (by norm_num [MaxInt] at hout ⊢; omega)
      simpa [beBytes_length] using this
    have e4 : Reader.UnpackBytes ⟨full, 1 + 8 + (4 + out.length), none⟩
        MaxWarpMessageSize false =
        ([], ⟨full, 1 + 8 + (4 + out.length) + 4, some .tooLarge⟩) := by
      have := Reader.UnpackBytes_tooLarge full
        ([boolByte s] ++ beBytes 8 u ++ (beBytes 4 out.length ++ out)) rest
        MaxWarpMessageSize L
        (by simp [hfl, List.append_assoc]) hL hbig
      have hx : ([boolByte s] ++ beBytes 8 u ++ (beBytes 4 out.length ++ out)).length
          = 1 + 8 + (4 + out.length) := by
        simp [beBytes_length]
        omega
      rw [hx] at this
      exact this
    simp only [UnmarshalResult, e1, e2, e3, e4]
    simp
  · intro p r p1 h
    exact UnmarshalResult_warp_bounded p r p1 h

/-- Claim C6 witness: a concrete oversized declared warp length is rejected,
and a concrete successful decode carries a warp message within the bound. -/
theorem C6_witness :
    (([] : List Nat).length < 2 ^ 32 ∧ (262145 : Nat) < 2 ^ 32 ∧
      MaxWarpMessageSize < 262145 ∧
      (UnmarshalResult ⟨boolByte false ::
          (beBytes 8 0 ++ (beBytes 4 ([] : List Nat).length ++ []) ++
            (beBytes 4 262145 ++ [])), 0, none⟩).1 = .error (.codec .tooLarge)) ∧
    ((UnmarshalResult ⟨[1, 0, 0, 0, 0, 0, 0, 0, 0, 0, 0, 0, 0, 0, 0, 0, 32, 0, 0, 0,
        0, 0, 0, 0, 0, 0, 0, 0, 0, 0, 0, 0, 0, 0, 0, 0, 0, 0, 0, 0, 0, 0, 0, 0, 0,
        0, 0, 0, 0], 0, none⟩).1 = .ok ⟨true, 0, none, some ⟨0, []⟩⟩ ∧
      (⟨0, []⟩ : UnsignedMessage).Bytes.length ≤ MaxWarpMessageSize) := by
  constructor
  · refine ⟨by decide, by decide, by decide, ?_⟩
    exact C6_warp_size_bound.1 false 0 [] 262145 [] (by decide) (by decide) (by decide)
  · constructor
    · decide
    · refine C6_warp_size_bound.2
        ⟨[1, 0, 0, 0, 0, 0, 0, 0, 0, 0, 0, 0, 0, 0, 0, 0, 32, 0, 0, 0, 0, 0, 0, 0,
          0, 0, 0, 0, 0, 0, 0, 0, 0, 0, 0, 0, 0, 0, 0, 0, 0, 0, 0, 0, 0, 0, 0, 0,
          0], 0, none⟩
        ⟨true, 0, none, some ⟨0, []⟩⟩
        ⟨[1, 0, 0, 0, 0, 0, 0, 0, 0, 0, 0, 0, 0, 0, 0, 0, 32, 0, 0, 0, 0, 0, 0, 0,
          0, 0, 0, 0, 0, 0, 0, 0, 0, 0, 0, 0, 0, 0, 0, 0, 0, 0, 0, 0, 0, 0, 0, 0,
          0], 49, none⟩
        (by decide) ⟨0, []⟩ rfl

/-- Claim C7: the encoding a `Result.Marshal` appends is exactly the success
boolean, then the eight-byte fee units, then the length-prefixed output
bytes, then the length-prefixed warp bytes (empty when absent) — no field
omitted or reordered. -/
theorem C7_marshal_field_order (r : Result) (p : Writer) (h0 : p.err = none)
    (h : p.b.length + (resultBytes r).length ≤ p.limit) :
    Result.Marshal r p =
      ⟨p.b ++ ([boolByte r.Success] ++ beBytes 8 r.Units ++
        (beBytes 4 (r.Output.getD []).length ++ r.Output.getD []) ++
        (beBytes 4 (warpBytesOf r).length ++ warpBytesOf r)), p.limit, none⟩ := by
  rw [Result.marshal_eq r p h0 h]
  simp [resultBytes, lenPrefixed, outBytesOf, warpBytesOf, List.append_assoc]

/-- Claim C7 witness: the field order at a concrete Result and fresh writer. -/
theorem C7_witness :
    (Writer.new MaxInt).err = none ∧
    (Writer.new MaxInt).b.length +
      (resultBytes ⟨true, 5, some [7], none⟩).length ≤ (Writer.new MaxInt).limit ∧
    Result.Marshal ⟨true, 5, some [7], none⟩ (Writer.new MaxInt) =
      ⟨(Writer.new MaxInt).b ++ ([boolByte true] ++ beBytes 8 5 ++
        (beBytes 4 ((some [7] : Option (List Nat)).getD []).length ++
          (some [7] : Option (List Nat)).getD []) ++
        (beBytes 4 (warpBytesOf ⟨true, 5, some [7], none⟩).length ++
          warpBytesOf ⟨true, 5, some [7], none⟩)),
        (Writer.new MaxInt).limit, none⟩ :=
  ⟨rfl, by decide, C7_marshal_field_order ⟨true, 5, some [7], none⟩
    (Writer.new MaxInt) rfl (by decide)⟩

/-- Claim C9: a decoded Result's Output is never the empty non-nil slice —
zero-length output segments decode to nil — and consequently encode-then-
decode maps a Result with an empty non-nil Output to one with a nil Output. -/
theorem C9_output_normalized :
    (∀ (p : Reader) (r : Result) (p1 : Reader), UnmarshalResult p = (.ok r, p1) →
      r.Output ≠ some ([] : List Nat)) ∧
    (∀ (s : Bool) (u : Nat) (bs : List Nat), u < 2 ^ 64 →
      MarshalResults [⟨s, u, some [], none⟩] = .ok bs →
      UnmarshalResults bs = .ok [⟨s, u, none, none⟩]) := by
  constructor
  · exact UnmarshalResult_output_ne_empty
  · intro s u bs hu hm
    have hshape := MarshalResults_ok_shape [⟨s, u, some [], none⟩] bs hm
    have hsame : bytesConcat [(⟨s, u, some [], none⟩ : Result)] =
        bytesConcat [(⟨s, u, none, none⟩ : Result)] := rfl
    have hd := UnmarshalResults_decode [⟨s, u, none, none⟩] []
      (by
        intro x hx
        rw [List.mem_singleton] at hx
        subst hx
        refine ⟨⟨hu, by norm_num, ?_⟩, by simp⟩
        intro m hm'
        simp at hm')
      (by norm_num)
    rw [hshape, hsame]
    simpa using hd

/-- Claim C9 witness: at a concrete success flag and fee units, the Result
with empty non-nil Output decodes back with a nil Output. -/
theorem C9_witness :
    (3 : Nat) < 2 ^ 64 ∧
    MarshalResults [⟨false, 3, some [], none⟩] =
      .ok [0, 0, 0, 1, 0, 0, 0, 0, 0, 0, 0, 0, 3, 0, 0, 0, 0, 0, 0, 0, 0] ∧
    UnmarshalResults [0, 0, 0, 1, 0, 0, 0, 0, 0, 0, 0, 0, 3, 0, 0, 0, 0, 0, 0, 0, 0] =
      .ok [⟨false, 3, none, none⟩] :=
  ⟨by decide, by decide,
    C9_output_normalized.2 false 3 _ (by decide) (by decide)⟩

/-! ## Controller lemmas -/

/-- The record `Accepted` stages for one `(tx, result)` pair. -/
def recordOf (t : Int) (txr : Tx × Result) : TxID × TxRecord :=
  (txr.1.id, ⟨t, txr.2.Success, txr.2.Units⟩)

theorem StoreTransaction_ok (storeErr : TxID → Bool) (batch : Batch)
    (txID : TxID) (t : Int) (success : Bool) (units : Nat) (b : Batch)
    (h : StoreTransaction storeErr batch txID t success units = .ok b) :
    b = batch ++ [(txID, ⟨t, success, units⟩)] := by
  simp only [StoreTransaction] at h
  split at h
  · simp at h
  · exact (Except.ok.inj h).symm

theorem acceptTx_ok_batch (storeErr : TxID → Bool) (t : Int)
    (st : Batch × Metrics × OrderBook) (txr : Tx × Result)
    (st1 : Batch × Metrics × OrderBook)
    (h : acceptTx storeErr t st txr = (none, st1)) :
    st1.1 = st.1 ++ [recordOf t txr] := by
  cases hst : StoreTransaction storeErr st.1 txr.1.id t txr.2.Success txr.2.Units with
  | error e =>
    simp only [acceptTx, hst] at h
    simp at h
  | ok batch =>
    have hb := StoreTransaction_ok storeErr st.1 txr.1.id t txr.2.Success
      txr.2.Units batch hst
    simp only [acceptTx, hst] at h
    split at h
    · split at h <;>
        first
        | (split at h <;>
            first
            | simp at h
            | (split at h <;>
                (rw [Prod.mk.injEq] at h
                 rw [← h.2]
                 exact hb)))
        | (rw [Prod.mk.injEq] at h
           rw [← h.2]
           exact hb)
    · rw [Prod.mk.injEq] at h
      rw [← h.2]
      exact hb

theorem acceptLoop_ok_batch (storeErr : TxID → Bool) (t : Int) :
    ∀ (txs : List (Tx × Result)) (st st1 : Batch × Metrics × OrderBook),
    acceptLoop storeErr t txs st = (none, st1) →
    st1.1 = st.1 ++ txs.map (recordOf t) := by
  intro txs
  induction txs with
  | nil =>
    intro st st1 h
    simp only [acceptLoop] at h
    rw [Prod.mk.injEq] at h
    rw [← h.2]
    simp
  | cons txr rest ih =>
    intro st st1 h
    simp only [acceptLoop] at h
    split at h
    · simp at h
    · rename_i st2 hstep
      have h1 := acceptTx_ok_batch storeErr t st txr st2 hstep
      have h2 := ih st2 st1 h
      rw [h2, h1]
      simp

/-! ## Claim theorems: the controller -/

/-- Claim C2: for every order and fill amount within the remaining supply,
the fill executes, its output is `f * OutTick / InTick` with integer
truncation, and the remaining supply decreases by exactly `f`. -/
theorem C2_fill_arithmetic (o : Order) (f : Nat) (h : f ≤ o.remaining) :
    FillOrderExecute o f =
      some (f * o.outTick / o.inTick, { o with remaining := o.remaining - f }) ∧
    o.remaining - (o.remaining - f) = f := by
  constructor
  · simp [FillOrderExecute, h]
  · omega

/-- Claim C2 witness: the spec's own worked example — a 2:1 order with supply
100 filled with 40 yields output 20 and remaining 60. -/
theorem C2_witness :
    (40 : Nat) ≤ (⟨1, 7, 2, 1, 100, 7⟩ : Order).remaining ∧
    (FillOrderExecute ⟨1, 7, 2, 1, 100, 7⟩ 40 = some (20, ⟨1, 7, 2, 1, 60, 7⟩) ∧
      (⟨1, 7, 2, 1, 100, 7⟩ : Order).remaining -
        ((⟨1, 7, 2, 1, 100, 7⟩ : Order).remaining - 40) = 40) :=
  ⟨by decide, C2_fill_arithmetic ⟨1, 7, 2, 1, 100, 7⟩ 40 (by decide)⟩

/-- Claim C3: for a successful transaction whose record stores cleanly, the
`Accepted` loop body registers a `CreateOrder` under the canonical pair key
with the transaction's ID as the order ID, removes a filled order when the
fill result's remaining supply is zero and otherwise updates it to that
value, and removes the target of a `CloseOrder`. -/
theorem C3_orderbook_dispatch (storeErr : TxID → Bool) (t : Int)
    (st : Batch × Metrics × OrderBook) (tx : Tx) (res : Result)
    (hsucc : res.Success = true) (hstore : storeErr tx.id = false) :
    (∀ inAsset outAsset inTick outTick supply,
      tx.action = .CreateOrder inAsset outAsset inTick outTick supply →
      (acceptTx storeErr t st (tx, res)).1 = none ∧
      ((acceptTx storeErr t st (tx, res)).2).2.2 =
        OrderBook.Add st.2.2 (PairID inAsset outAsset)
          ⟨tx.id, tx.actor, inTick, outTick, supply, tx.actor⟩) ∧
    (∀ ord ores, tx.action = .FillOrder ord →
      UnmarshalOrderResult res.Output = .ok ores →
      (acceptTx storeErr t st (tx, res)).1 = none ∧
      ((acceptTx storeErr t st (tx, res)).2).2.2 =
        (if ores.remaining = 0 then OrderBook.Remove st.2.2 ord
         else OrderBook.UpdateRemaining st.2.2 ord ores.remaining)) ∧
    (∀ ord, tx.action = .CloseOrder ord →
      (acceptTx storeErr t st (tx, res)).1 = none ∧
      ((acceptTx storeErr t st (tx, res)).2).2.2 = OrderBook.Remove st.2.2 ord) := by
  refine ⟨?_, ?_, ?_⟩
  · intro inAsset outAsset inTick outTick supply ha
    simp [acceptTx, StoreTransaction, hstore, hsucc, ha]
  · intro ord ores ha hores
    simp only [acceptTx, StoreTransaction, hstore, Bool.false_eq_true, if_false,
      hsucc, if_true, ha, hores]
    by_cases hz : ores.remaining = 0
    · simp [hz]
    · simp [hz]
  · intro ord ha
    simp [acceptTx, StoreTransaction, hstore, hsucc, ha]

/-- Claim C3 witness: the three dispatch arms at concrete inputs — create a
2:1 order, fill it down to remaining 60, fill it to zero, and close it. -/
theorem C3_witness :
    ((⟨true, 1, none, none⟩ : Result).Success = true ∧
      (fun _ => false : TxID → Bool) 5 = false) ∧
    ((acceptTx (fun _ => false) 9 ([], ⟨0,0,0,0,0,0,0,0,0,0⟩, [])
        (⟨5, .CreateOrder 2 1 2 1 100, 7⟩, ⟨true, 1, none, none⟩)).2).2.2 =
      OrderBook.Add [] (PairID 2 1) ⟨5, 7, 2, 1, 100, 7⟩ ∧
    ((acceptTx (fun _ => false) 9 ([], ⟨0,0,0,0,0,0,0,0,0,0⟩, [])
        (⟨5, .FillOrder 4, 7⟩,
          ⟨true, 1, some [0, 0, 0, 0, 0, 0, 0, 60], none⟩)).2).2.2 =
      OrderBook.UpdateRemaining [] 4 60 ∧
    ((acceptTx (fun _ => false) 9 ([], ⟨0,0,0,0,0,0,0,0,0,0⟩, [])
        (⟨5, .FillOrder 4, 7⟩,
          ⟨true, 1, some [0, 0, 0, 0, 0, 0, 0, 0], none⟩)).2).2.2 =
      OrderBook.Remove [] 4 ∧
    ((acceptTx (fun _ => false) 9 ([], ⟨0,0,0,0,0,0,0,0,0,0⟩, [])
        (⟨5, .CloseOrder 4, 7⟩, ⟨true, 1, none, none⟩)).2).2.2 =
      OrderBook.Remove [] 4 := by
  refine ⟨⟨rfl, rfl⟩, ?_, ?_, ?_, ?_⟩
  · exact ((C3_orderbook_dispatch (fun _ => false) 9 ([], ⟨0,0,0,0,0,0,0,0,0,0⟩, [])
      ⟨5, .CreateOrder 2 1 2 1 100, 7⟩ ⟨true, 1, none, none⟩ rfl rfl).1
      2 1 2 1 100 rfl).2
  · have := ((C3_orderbook_dispatch (fun _ => false) 9 ([], ⟨0,0,0,0,0,0,0,0,0,0⟩, [])
      ⟨5, .FillOrder 4, 7⟩ ⟨true, 1, some [0, 0, 0, 0, 0, 0, 0, 60], none⟩ rfl rfl).2.1
      4 ⟨60⟩ rfl (by decide)).2
    simpa using this
  · have := ((C3_orderbook_dispatch (fun _ => false) 9 ([], ⟨0,0,0,0,0,0,0,0,0,0⟩, [])
      ⟨5, .FillOrder 4, 7⟩ ⟨true, 1, some [0, 0, 0, 0, 0, 0, 0, 0], none⟩ rfl rfl).2.1
      4 ⟨0⟩ rfl (by decide)).2
    simpa using this
  · exact ((C3_orderbook_dispatch (fun _ => false) 9 ([], ⟨0,0,0,0,0,0,0,0,0,0⟩, [])
      ⟨5, .CloseOrder 4, 7⟩ ⟨true, 1, none, none⟩ rfl rfl).2.2 4 rfl).2

/-- Claim C4: `Accepted` stages all storage writes in one batch committed at
the end — on any error it returns before the batch is written, leaving the
metadata store exactly as it was; on success the store gains precisely the
block's per-transaction records. -/
theorem C4_atomic_commit (storeErr : TxID → Bool) (writeErr : Bool) (t : Int)
    (txs : List (Tx × Result)) (s : CState) :
    (∀ e, (Controller.Accepted storeErr writeErr t txs s).1 = some e →
      ((Controller.Accepted storeErr writeErr t txs s).2).metaDB = s.metaDB) ∧
    ((Controller.Accepted storeErr writeErr t txs s).1 = none →
      ((Controller.Accepted storeErr writeErr t txs s).2).metaDB =
        s.metaDB ++ txs.map (recordOf t)) := by
  constructor
  · intro e he
    cases hl : acceptLoop storeErr t txs ([], s.metrics, s.orderBook) with
    | mk o rest =>
      obtain ⟨b, m, ob⟩ := rest
      cases o with
      | some e' => simp [Controller.Accepted, hl]
      | none =>
        simp only [Controller.Accepted, hl] at he ⊢
        by_cases hw : writeErr = true
        · rw [if_pos hw]
        · rw [if_neg hw] at he
          simp at he
  · intro hn
    cases hl : acceptLoop storeErr t txs ([], s.metrics, s.orderBook) with
    | mk o rest =>
      obtain ⟨b, m, ob⟩ := rest
      cases o with
      | some e' =>
        simp only [Controller.Accepted, hl] at hn
        simp at hn
      | none =>
        simp only [Controller.Accepted, hl] at hn ⊢
        by_cases hw : writeErr = true
        · rw [if_pos hw] at hn
          simp at hn
        · rw [if_neg hw]
          have hb := acceptLoop_ok_batch storeErr t txs ([], s.metrics, s.orderBook)
            (b, m, ob) hl
          simp only at hb
          rw [hb]
          simp

/-- Claim C4 witness: a concrete failing store leaves the metadata store
untouched, and a concrete clean run commits exactly the block's records. -/
theorem C4_witness :
    ((Controller.Accepted (fun _ => true) false 9
        [(⟨5, .Transfer, 7⟩, ⟨true, 1, none, none⟩)]
        ⟨[(0, ⟨0, true, 0⟩)], ⟨0,0,0,0,0,0,0,0,0,0⟩, []⟩).1 = some .storeFailed ∧
      ((Controller.Accepted (fun _ => true) false 9
        [(⟨5, .Transfer, 7⟩, ⟨true, 1, none, none⟩)]
        ⟨[(0, ⟨0, true, 0⟩)], ⟨0,0,0,0,0,0,0,0,0,0⟩, []⟩).2).metaDB =
        [(0, ⟨0, true, 0⟩)]) ∧
    ((Controller.Accepted (fun _ => false) false 9
        [(⟨5, .Transfer, 7⟩, ⟨true, 1, none, none⟩)]
        ⟨[(0, ⟨0, true, 0⟩)], ⟨0,0,0,0,0,0,0,0,0,0⟩, []⟩).1 = none ∧
      ((Controller.Accepted (fun _ => false) false 9
        [(⟨5, .Transfer, 7⟩, ⟨true, 1, none, none⟩)]
        ⟨[(0, ⟨0, true, 0⟩)], ⟨0,0,0,0,0,0,0,0,0,0⟩, []⟩).2).metaDB =
        [(0, ⟨0, true, 0⟩)] ++
          [(⟨5, .Transfer, 7⟩, (⟨true, 1, none, none⟩ : Result))].map (recordOf 9)) := by
  constructor
  · refine ⟨by decide, ?_⟩
    exact (C4_atomic_commit (fun _ => true) false 9
      [(⟨5, .Transfer, 7⟩, ⟨true, 1, none, none⟩)]
      ⟨[(0, ⟨0, true, 0⟩)], ⟨0,0,0,0,0,0,0,0,0,0⟩, []⟩).1 .storeFailed (by decide)
  · refine ⟨by decide, ?_⟩
    exact (C4_atomic_commit (fun _ => false) false 9
      [(⟨5, .Transfer, 7⟩, ⟨true, 1, none, none⟩)]
      ⟨[(0, ⟨0, true, 0⟩)], ⟨0,0,0,0,0,0,0,0,0,0⟩, []⟩).2 (by decide)

/-- Claim C5: a successful `Accepted` run persists a record (ID, timestamp,
success flag, fee units) for every transaction whether or not it succeeded;
and for a failed transaction the loop body changes neither the metrics nor
the order book. -/
theorem C5_record_regardless (storeErr : TxID → Bool) (writeErr : Bool) (t : Int)
    (txs : List (Tx × Result)) (s : CState) :
    ((Controller.Accepted storeErr writeErr t txs s).1 = none →
      ∀ txr ∈ txs, recordOf t txr ∈
        ((Controller.Accepted storeErr writeErr t txs s).2).metaDB) ∧
    (∀ (st : Batch × Metrics × OrderBook) (txr : Tx × Result),
      txr.2.Success = false →
      ((acceptTx storeErr t st txr).2).2.1 = st.2.1 ∧
      ((acceptTx storeErr t st txr).2).2.2 = st.2.2) := by
  constructor
  · intro hn txr hmem
    have hdb := (C4_atomic_commit storeErr writeErr t txs s).2 hn
    rw [hdb]
    refine List.mem_append_right _ ?_
    exact List.mem_map_of_mem (recordOf t) hmem
  · intro st txr hfail
    simp only [acceptTx, StoreTransaction]
    split
    · exact ⟨rfl, rfl⟩
    · rw [hfail]
      simp

/-- Claim C5 witness: a failed transaction's record is still committed, and
the loop body leaves metrics and order book untouched for it. -/
theorem C5_witness :
    ((Controller.Accepted (fun _ => false) false 9
        [(⟨5, .Transfer, 7⟩, ⟨false, 1, none, none⟩)]
        ⟨[], ⟨0,0,0,0,0,0,0,0,0,0⟩, []⟩).1 = none ∧
      (⟨5, (⟨9, false, 1⟩ : TxRecord)⟩ : TxID × TxRecord) ∈
        ((Controller.Accepted (fun _ => false) false 9
          [(⟨5, .Transfer, 7⟩, ⟨false, 1, none, none⟩)]
          ⟨[], ⟨0,0,0,0,0,0,0,0,0,0⟩, []⟩).2).metaDB) ∧
    ((⟨false, 1, none, none⟩ : Result).Success = false ∧
      ((acceptTx (fun _ => false) 9 ([], ⟨0,0,0,0,0,0,0,0,0,0⟩, [])
        (⟨5, .Transfer, 7⟩, ⟨false, 1, none, none⟩)).2).2.1 = ⟨0,0,0,0,0,0,0,0,0,0⟩ ∧
      ((acceptTx (fun _ => false) 9 ([], ⟨0,0,0,0,0,0,0,0,0,0⟩, [])
        (⟨5, .Transfer, 7⟩, ⟨false, 1, none, none⟩)).2).2.2 = []) := by
  constructor
  · refine ⟨by decide, ?_⟩
    exact (C5_record_regardless (fun _ => false) false 9
      [(⟨5, .Transfer, 7⟩, ⟨false, 1, none, none⟩)]
      ⟨[], ⟨0,0,0,0,0,0,0,0,0,0⟩, []⟩).1 (by decide)
      (⟨5, .Transfer, 7⟩, ⟨false, 1, none, none⟩) (by simp)
  · refine ⟨rfl, ?_⟩
    exact (C5_record_regardless (fun _ => false) false 9
      [(⟨5, .Transfer, 7⟩, ⟨false, 1, none, none⟩)]
      ⟨[], ⟨0,0,0,0,0,0,0,0,0,0⟩, []⟩).2 ([], ⟨0,0,0,0,0,0,0,0,0,0⟩, [])
      (⟨5, .Transfer, 7⟩, ⟨false, 1, none, none⟩) rfl

/-- Claim C8: `Rejected` mutates nothing — the metadata store, the metrics
and the order book stay exactly as they were — and it returns no error. -/
theorem C8_rejected_noop (s : CState) :
    (Controller.Rejected s).1 = none ∧
    ((Controller.Rejected s).2).metaDB = s.metaDB ∧
    ((Controller.Rejected s).2).metrics = s.metrics ∧
    ((Controller.Rejected s).2).orderBook = s.orderBook :=
  ⟨rfl, rfl, rfl, rfl⟩

/-! ## Wallet lemmas -/

theorem getUTXOsLoop_early (assetID : AssetID) (amount : Nat) (addrs : List Addr) :
    ∀ (us acc : List UTXO) (total : Nat),
    (getUTXOsLoop assetID amount addrs us acc total).2.2 = true →
    amount ≤ (getUTXOsLoop assetID amount addrs us acc total).2.1 := by
  intro us
  induction us with
  | nil => intro acc total h; simp [getUTXOsLoop] at h
  | cons u rest ih =>
    intro acc total h
    by_cases h1 : u.assetID = assetID
    · by_cases h2 : u.owner ∈ addrs
      · by_cases h3 : amount ≤ (total + u.amount) % 2 ^ 64
        · simp only [getUTXOsLoop] at h ⊢
          simp [h1, h2] at h ⊢
          split
          · exact h3
          · rename_i hc
            exact absurd h3 hc
        · simp only [getUTXOsLoop] at h ⊢
          simp [h1, h2] at h ⊢
          split
          · rename_i hc
            exact absurd hc h3
          · rename_i hc
            rw [if_neg hc] at h
            exact ih (acc ++ [u]) ((total + u.amount) % 2 ^ 64) h
      · simp only [getUTXOsLoop] at h ⊢
        simp [h1, h2] at h ⊢
        exact ih acc total h
    · simp only [getUTXOsLoop] at h ⊢
      simp [h1] at h ⊢
      exact ih acc total h

theorem getUTXOsLoop_shape (assetID : AssetID) (amount : Nat) (addrs : List Addr) :
    ∀ (us acc : List UTXO) (total : Nat),
    ∃ sel : List UTXO,
      (getUTXOsLoop assetID amount addrs us acc total).1 = acc ++ sel ∧
      (getUTXOsLoop assetID amount addrs us acc total).2.1 = wrapSum total sel := by
  intro us
  induction us with
  | nil =>
    intro acc total
    exact ⟨[], by simp [getUTXOsLoop, wrapSum]⟩
  | cons u rest ih =>
    intro acc total
    by_cases h1 : u.assetID = assetID
    · by_cases h2 : u.owner ∈ addrs
      · by_cases h3 : amount ≤ (total + u.amount) % 2 ^ 64
        · simp only [getUTXOsLoop]
          simp [h1, h2]
          split
          · exact ⟨[u], by simp, by simp [wrapSum]⟩
          · rename_i hc
            exact absurd h3 hc
        · simp only [getUTXOsLoop]
          simp [h1, h2]
          split
          · rename_i hc
            exact absurd hc h3
          · obtain ⟨sel, hs1, hs2⟩ := ih (acc ++ [u]) ((total + u.amount) % 2 ^ 64)
            refine ⟨u :: sel, ?_, ?_⟩
            · simpa using hs1
            · simpa [wrapSum] using hs2
      · simp only [getUTXOsLoop]
        simp [h1, h2]
        exact ih acc total
    · simp only [getUTXOsLoop]
      simp [h1]
      exact ih acc total

theorem wrapSum_eq_sum (l : List UTXO) :
    ∀ total : Nat, total + (l.map (fun u => u.amount)).sum < 2 ^ 64 →
    wrapSum total l = total + (l.map (fun u => u.amount)).sum := by
  induction l with
  | nil => intro total _; simp [wrapSum]
  | cons u rest ih =>
    intro total hb
    simp only [List.map_cons, List.sum_cons] at hb ⊢
    simp only [wrapSum]
    rw [Nat.mod_eq_of_lt (by omega)]
    rw [ih (total + u.amount) (by omega)]
    omega

theorem GetUTXOs_spec (w : Wallet) (assetID : AssetID) (amount : Nat)
    (us : List UTXO) (t : Nat)
    (h : w.GetUTXOs assetID amount = .ok (us, t))
    (hsel : (us.map (fun u => u.amount)).sum < 2 ^ 64) :
    t = (us.map (fun u => u.amount)).sum ∧ amount ≤ t := by
  obtain ⟨sel, hs1, hs2⟩ :=
    getUTXOsLoop_shape assetID amount w.addresses w.utxos [] 0
  simp only [List.nil_append] at hs1
  simp only [Wallet.GetUTXOs] at h
  split at h
  · rename_i hearly
    have hle := getUTXOsLoop_early assetID amount w.addresses w.utxos [] 0 hearly
    rw [Except.ok.injEq, Prod.mk.injEq] at h
    obtain ⟨h1, h2⟩ := h
    subst h1
    subst h2
    rw [hs1] at hsel
    refine ⟨?_, hle⟩
    rw [hs2, hs1]
    rw [wrapSum_eq_sum sel 0 (by omega)]
    omega
  · split at h
    · simp at h
    · rename_i hlt
      rw [Except.ok.injEq, Prod.mk.injEq] at h
      obtain ⟨h1, h2⟩ := h
      subst h1
      subst h2
      rw [hs1] at hsel
      refine ⟨?_, by omega⟩
      rw [hs2, hs1]
      rw [wrapSum_eq_sum sel 0 (by omega)]
      omega

/-! ## Claim theorems: the wallet -/

/-- Claim C10, counterexample: the claim fails as stated.  `GetUTXOs`
accumulates `totalAmt` with uint64 wrap-around, so a wallet holding UTXOs of
amounts 2^64-2, 2^64-2 and 3, asked to transfer 2^64-1, succeeds (the
accumulator wraps to 2^64-4 and then reaches exactly 2^64-1) and returns a
transaction whose inputs sum to 2^65-1 while its single output carries only
2^64-1 — the input and output sums differ. -/
theorem C10_counterexample :
    Wallet.CreateTransferTx
        ⟨1, 2, [⟨1, 5, 18446744073709551614, 7, 0⟩,
                ⟨2, 5, 18446744073709551614, 7, 0⟩,
                ⟨3, 5, 3, 7, 0⟩], [7]⟩ 9 5 18446744073709551615 [] =
      .ok ⟨1, 2,
        [⟨1, 5, 18446744073709551614⟩, ⟨2, 5, 18446744073709551614⟩, ⟨3, 5, 3⟩],
        [⟨5, 18446744073709551615, 9, 0⟩], []⟩ ∧
    ¬ (([(⟨1, 5, 18446744073709551614⟩ : TransferInput),
          ⟨2, 5, 18446744073709551614⟩, ⟨3, 5, 3⟩].map (fun i => i.amount)).sum =
        ([(⟨5, 18446744073709551615, 9, 0⟩ : TransferOutput)].map
          (fun o => o.amount)).sum) := by
  refine ⟨by decide, by decide⟩

/-- Claim C10 (amended): every transfer transaction the wallet builds whose
selected UTXO amounts sum below 2^64 — i.e. the uint64 accumulator in
`GetUTXOs` does not wrap — is balanced: input amounts sum to output amounts,
with the recipient output carrying the requested amount and, when the
selected UTXO total exceeds it, a change output back to the wallet's own
first address carrying the difference. -/
theorem C10_transfer_balanced (w : Wallet) (toAddr : Addr) (assetID : AssetID)
    (amount : Nat) (memo : List Nat) (tx : TransferTx)
    (hsel : (tx.inputs.map (fun i => i.amount)).sum < 2 ^ 64)
    (h : Wallet.CreateTransferTx w toAddr assetID amount memo = .ok tx) :
    (tx.inputs.map (fun i => i.amount)).sum =
      (tx.outputs.map (fun o => o.amount)).sum ∧
    tx.outputs =
      (if amount < (tx.inputs.map (fun i => i.amount)).sum then
        [⟨assetID, amount, toAddr, 0⟩,
         ⟨assetID, (tx.inputs.map (fun i => i.amount)).sum - amount,
           w.addresses.headD 0, 0⟩]
      else [⟨assetID, amount, toAddr, 0⟩]) := by
  cases hg : w.GetUTXOs assetID amount with
  | error e => simp [Wallet.CreateTransferTx, hg] at h
  | ok p =>
    obtain ⟨us, total⟩ := p
    simp only [Wallet.CreateTransferTx, hg] at h
    have hinp : (us.map fun u => TransferInput.mk u.id assetID u.amount).map
        (fun i => i.amount) = us.map fun u => u.amount := by
      rw [List.map_map]
      rfl
    split at h
    · rename_i hlt
      cases ha : w.addresses with
      | nil =>
        simp only [Wallet.GetAddress, ha] at h
        simp at h
      | cons a rest =>
        simp only [Wallet.GetAddress, ha] at h
        rw [Except.ok.injEq] at h
        subst h
        obtain ⟨hts, hat⟩ := GetUTXOs_spec w assetID amount us total hg
          (by simpa [hinp] using hsel)
        simp only [hinp]
        rw [← hts]
        constructor
        · simp
          omega
        · rw [if_pos hlt]
          simp [ha]
    · rename_i hnlt
      rw [Except.ok.injEq] at h
      subst h
      obtain ⟨hts, hat⟩ := GetUTXOs_spec w assetID amount us total hg
        (by simpa [hinp] using hsel)
      simp only [hinp]
      rw [← hts]
      constructor
      · simp
        omega
      · rw [if_neg hnlt]

/-- Claim C10 witness: a wallet holding one 10-unit UTXO transfers 4 units,
producing a balanced transaction with a 6-unit change output to itself. -/
theorem C10_witness :
    (((⟨1, 2, [⟨1, 5, 10⟩], [⟨5, 4, 9, 0⟩, ⟨5, 6, 7, 0⟩], []⟩ : TransferTx).inputs.map
        (fun i => i.amount)).sum < 2 ^ 64) ∧
    Wallet.CreateTransferTx ⟨1, 2, [⟨1, 5, 10, 7, 0⟩], [7]⟩ 9 5 4 [] =
      .ok ⟨1, 2, [⟨1, 5, 10⟩], [⟨5, 4, 9, 0⟩, ⟨5, 6, 7, 0⟩], []⟩ ∧
    (((⟨1, 2, [⟨1, 5, 10⟩], [⟨5, 4, 9, 0⟩, ⟨5, 6, 7, 0⟩], []⟩ : TransferTx).inputs.map
        (fun i => i.amount)).sum =
      ((⟨1, 2, [⟨1, 5, 10⟩], [⟨5, 4, 9, 0⟩, ⟨5, 6, 7, 0⟩], []⟩ : TransferTx).outputs.map
        (fun o => o.amount)).sum ∧
      (⟨1, 2, [⟨1, 5, 10⟩], [⟨5, 4, 9, 0⟩, ⟨5, 6, 7, 0⟩], []⟩ : TransferTx).outputs =
        (if 4 < ((⟨1, 2, [⟨1, 5, 10⟩], [⟨5, 4, 9, 0⟩, ⟨5, 6, 7, 0⟩],
            []⟩ : TransferTx).inputs.map (fun i => i.amount)).sum then
          [⟨5, 4, 9, 0⟩,
           ⟨5, ((⟨1, 2, [⟨1, 5, 10⟩], [⟨5, 4, 9, 0⟩, ⟨5, 6, 7, 0⟩],
             []⟩ : TransferTx).inputs.map (fun i => i.amount)).sum - 4,
             (⟨1, 2, [⟨1, 5, 10, 7, 0⟩], [7]⟩ : Wallet).addresses.headD 0, 0⟩]
        else [⟨5, 4, 9, 0⟩])) :=
  ⟨by decide, by decide,
    C10_transfer_balanced ⟨1, 2, [⟨1, 5, 10, 7, 0⟩], [7]⟩ 9 5 4 []
      ⟨1, 2, [⟨1, 5, 10⟩], [⟨5, 4, 9, 0⟩, ⟨5, 6, 7, 0⟩], []⟩
      (by decide) (by decide)⟩

end LuxSDK
